import Mathlib

/-!
Verification development for the interactive image-bisection tool
(`bisect_images.py`).  The Python program is shallowly embedded:

* `BisectState` mirrors the dataclass `BisectState(left, right, current_index)`.
* `Session` bundles the live state with the history stack (head = most
  recently pushed entry, matching Python's `list.append`/`list.pop`).
* `processCommand` is the body of the interactive `while` loop for one
  input line: it normalises the line (`strip().lower()`), dispatches on
  `"q"`, `"n"`, `"p"`, `command.startswith("r")`, and otherwise reports an
  unknown command.  Python's floor division `//` is `Int.fdiv`.
* `parse_image_filename` / `sort_images` embed the catalog builder; the
  regex search `IMG_(\d{8}_\d{6})_AATP(\d{4})\.` is embedded as an
  explicit leftmost-match scanner, and Python's stable `list.sort` as
  `List.mergeSort`.
* `mainRun` embeds the pre-loop part of `main`; the filesystem check
  `path.exists() and path.is_file()` is abstracted as a boolean predicate
  and a path is modelled by its final-component name, the only part the
  program inspects.  Terminal output is modelled by the `LoopEvent` /
  `PreLoopError` values; each constructor stands for the corresponding
  `print` to stdout or stderr.
-/

namespace BisectImages

/-- The dataclass `BisectState(left, right, current_index)`. -/
structure BisectState where
  left : Int
  right : Int
  current_index : Int
  deriving DecidableEq, Repr

/-- The live search state together with the `history` stack.  The head of
`history` is the most recently pushed entry (Python appends and pops at
the end of its list). -/
structure Session where
  st : BisectState
  history : List BisectState
  deriving DecidableEq, Repr

/-- One observable outcome of processing a command line; each constructor
stands for the corresponding console output of the loop body. -/
inductive LoopEvent where
  | quit
  | narrowed (displayed : Int)
  | cannotBisect
  | invalidRedoCount
  | redoNotPositive
  | redoTooMany (requested : Int) (available : Nat)
  | redid (count : Int) (displayed : Int)
  | unknown
  deriving DecidableEq, Repr

/-- The whitespace characters recognised by Python's `str.strip()` and
`str.split()` (ASCII part). -/
def isPySpace (c : Char) : Bool :=
  c = ' ' || c = '\t' || c = '\n' || c = '\x0d' || c = '\x0b' || c = '\x0c'

/-- Python `str.strip()`: drop whitespace from both ends. -/
def pyStrip (s : List Char) : List Char :=
  ((s.dropWhile isPySpace).reverse.dropWhile isPySpace).reverse

/-- Python `str.lower()` (ASCII part). -/
def pyLower (s : List Char) : List Char :=
  s.map Char.toLower

/-- Worker for `pySplit`: `acc` holds the current token reversed. -/
def pySplitAux : List Char → List Char → List (List Char)
  | [], acc => if acc = [] then [] else [acc.reverse]
  | c :: rest, acc =>
    if isPySpace c then
      if acc = [] then pySplitAux rest [] else acc.reverse :: pySplitAux rest []
    else pySplitAux rest (c :: acc)

/-- Python `str.split()` with no argument: split on runs of whitespace,
dropping empty tokens. -/
def pySplit (s : List Char) : List (List Char) :=
  pySplitAux s []

/-- Numeric value of a decimal digit string (most significant first). -/
def digitsToNat (ds : List Char) : Nat :=
  ds.foldl (fun a c => a * 10 + (c.toNat - 48)) 0

/-- Tail of Python's `int()` digit grammar: digits with single underscores
allowed between digits. -/
def parseDigitTail (acc : Nat) : List Char → Option Nat
  | [] => some acc
  | c :: rest =>
    if c.isDigit then parseDigitTail (acc * 10 + (c.toNat - 48)) rest
    else if c = '_' then
      match rest with
      | [] => none
      | c2 :: rest2 =>
        if c2.isDigit then parseDigitTail (acc * 10 + (c2.toNat - 48)) rest2 else none
    else none

/-- A nonempty digit group, as accepted by Python's `int()` after the
optional sign. -/
def parseDigits : List Char → Option Nat
  | [] => none
  | c :: rest => if c.isDigit then parseDigitTail (c.toNat - 48) rest else none

/-- Python `int(str)`: strip whitespace, optional sign, nonempty digit
group; any other input raises `ValueError`, modelled as `none`. -/
def pyInt (s : List Char) : Option Int :=
  match pyStrip s with
  | [] => none
  | c :: rest =>
    if c = '+' then (parseDigits rest).map Int.ofNat
    else if c = '-' then (parseDigits rest).map (fun n => -(n : Int))
    else (parseDigits (c :: rest)).map Int.ofNat

/-- The loop `for _ in range(n): if history: state = history.pop(); ...`
of the redo branch: pop up to `n` entries, keeping the last popped one as
the live state. -/
def popLoop : Nat → BisectState → List BisectState → BisectState × List BisectState
  | 0, st, h => (st, h)
  | n + 1, st, h =>
    match h with
    | [] => popLoop n st []
    | top :: rest => popLoop n top rest

/-- The redo branch of the loop body, after the count has been parsed:
reject nonpositive counts, reject counts exceeding the history depth
(reporting the actual depth), otherwise pop exactly `redo_count` states. -/
def redoStep (s : Session) (redo_count : Int) : Session × LoopEvent :=
  if redo_count ≤ 0 then (s, .redoNotPositive)
  else if (s.history.length : Int) < redo_count then
    (s, .redoTooMany redo_count s.history.length)
  else
    let p := popLoop redo_count.toNat s.st s.history
    (⟨p.1, p.2⟩, .redid redo_count p.1.current_index)

/-- One iteration of the interactive `while` loop on input line `line`:
`command = input().strip().lower()`, then dispatch on `"q"`, `"n"`, `"p"`,
`command.startswith("r")`, else report an unknown command.  The
`narrowed`/`redid` events carry the index passed to `open_image`. -/
def processCommand (s : Session) (line : List Char) : Session × LoopEvent :=
  let command := pyLower (pyStrip line)
  if command = ['q'] then (s, .quit)
  else if command = ['n'] then
    if s.st.left < s.st.right then
      let newLeft := s.st.current_index + 1
      let newCur := (newLeft + s.st.right).fdiv 2
      (⟨⟨newLeft, s.st.right, newCur⟩, s.st :: s.history⟩, .narrowed newCur)
    else (s, .cannotBisect)
  else if command = ['p'] then
    if s.st.left < s.st.right then
      let newRight := s.st.current_index - 1
      let newCur := (s.st.left + newRight).fdiv 2
      (⟨⟨s.st.left, newRight, newCur⟩, s.st :: s.history⟩, .narrowed newCur)
    else (s, .cannotBisect)
  else if command.head? = some 'r' then
    let parts := pySplit command
    match (parts.drop 1).head? with
    | none => redoStep s 1
    | some tok =>
      match pyInt tok with
      | none => (s, .invalidRedoCount)
      | some k => redoStep s k
  else (s, .unknown)

/-- The state set up just before the loop:
`left = 0; right = len(sorted_images) - 1; current_index = (left + right) // 2`. -/
def initState (len : Nat) : BisectState :=
  ⟨0, (len : Int) - 1, ((0 : Int) + ((len : Int) - 1)).fdiv 2⟩

/-- The sessions reachable from the initial state of a catalog of `len`
items by any sequence of input lines. -/
inductive Reaches (len : Nat) : Session → Prop where
  | init : Reaches len ⟨initState len, []⟩
  | step (s : Session) (line : List Char) :
      Reaches len s → Reaches len (processCommand s line).1

/-- A filesystem path, modelled by its final-component name
(`pathlib.Path.name`), the only part the program inspects. -/
structure PyPath where
  name : List Char
  deriving DecidableEq, Repr

/-- The dataclass `ImageInfo(path, timestamp, atp_number)`. -/
structure ImageInfo where
  path : PyPath
  timestamp : List Char
  atp_number : Nat
  deriving DecidableEq, Repr

/-- Match a literal string at the head of `s`, returning the remainder. -/
def dropLit : List Char → List Char → Option (List Char)
  | [], s => some s
  | _ :: _, [] => none
  | c :: cs, d :: ds => if d = c then dropLit cs ds else none

/-- Match exactly `n` digits at the head of `s`
(the regex piece `\d{n}`), returning them and the remainder. -/
def grabDigits : Nat → List Char → Option (List Char × List Char)
  | 0, s => some ([], s)
  | _ + 1, [] => none
  | n + 1, c :: cs =>
    if c.isDigit then
      match grabDigits n cs with
      | some (ds, r) => some (c :: ds, r)
      | none => none
    else none

/-- Match one literal character at the head of `s`. -/
def expectChar (c : Char) : List Char → Option (List Char)
  | [] => none
  | d :: ds => if d = c then some ds else none

/-- Try the pattern `IMG_(\d{8}_\d{6})_AATP(\d{4})\.` anchored at the
start of `s`, returning (group 1, `int` of group 2) on success. -/
def matchAt (s : List Char) : Option (List Char × Nat) :=
  (dropLit ['I', 'M', 'G', '_'] s).bind fun s1 =>
  (grabDigits 8 s1).bind fun p8 =>
  (expectChar '_' p8.2).bind fun s3 =>
  (grabDigits 6 s3).bind fun p6 =>
  (dropLit ['_', 'A', 'A', 'T', 'P'] p6.2).bind fun s5 =>
  (grabDigits 4 s5).bind fun p4 =>
  (expectChar '.' p4.2).map fun _ => (p8.1 ++ '_' :: p6.1, digitsToNat p4.1)

/-- `re.search`: try the pattern at each start position, left to right. -/
def reSearch : List Char → Option (List Char × Nat)
  | [] => none
  | c :: rest =>
    match matchAt (c :: rest) with
    | some r => some r
    | none => reSearch rest

/-- `parse_image_filename`: extract timestamp and ATP number from the
path's name, or `None` when the pattern does not occur. -/
def parse_image_filename (p : PyPath) : Option ImageInfo :=
  match reSearch p.name with
  | some (ts, atp) => some ⟨p, ts, atp⟩
  | none => none

/-- Python string `<` (lexicographic by code point). -/
def strLt : List Char → List Char → Bool
  | [], [] => false
  | [], _ :: _ => true
  | _ :: _, [] => false
  | a :: as, b :: bs =>
    if a.toNat < b.toNat then true
    else if b.toNat < a.toNat then false
    else strLt as bs

/-- The sort key `(x.timestamp, x.atp_number)`. -/
def sortKey (x : ImageInfo) : List Char × Nat :=
  (x.timestamp, x.atp_number)

/-- Python tuple `≤` on the sort keys: timestamp compared first
(lexicographically), then the ATP number (numerically). -/
def keyLe (x y : ImageInfo) : Bool :=
  strLt x.timestamp y.timestamp ||
    (x.timestamp = y.timestamp && x.atp_number ≤ y.atp_number)

/-- `sort_images`: keep the paths that parse, then stable-sort ascending
by `(timestamp, atp_number)` (Python's `list.sort` with that key). -/
def sort_images (image_paths : List PyPath) : List ImageInfo :=
  (image_paths.filterMap parse_image_filename).mergeSort keyLe

/-- The two fatal pre-loop errors; each constructor stands for the
corresponding message on the error stream, followed by `sys.exit(1)`. -/
inductive PreLoopError where
  | noValidPaths
  | noAtpImages
  deriving DecidableEq, Repr

/-- The pre-loop part of `main`: filter the candidate paths by the
filesystem check (abstracted as `fsOk`), build the catalog, and either
fail fatally or set up the initial interactive session. -/
def mainRun (fsOk : PyPath → Bool) (input_paths : List PyPath) :
    Except PreLoopError (List ImageInfo × Session) :=
  let image_paths := input_paths.filter fsOk
  if image_paths.isEmpty then .error .noValidPaths
  else
    let sorted_images := sort_images image_paths
    if sorted_images.isEmpty then .error .noAtpImages
    else .ok (sorted_images, ⟨initState sorted_images.length, []⟩)

/-- The process exit status: 1 for the fatal pre-loop errors, 0 once the
interactive loop is reached (the loop only ends by quit, end-of-input or
interrupt, all of which return normally). -/
def exitStatus (fsOk : PyPath → Bool) (input_paths : List PyPath) : Nat :=
  match mainRun fsOk input_paths with
  | .error _ => 1
  | .ok _ => 0

/-- The acceptance condition of C10, phrased as the claim phrases it: the
name contains, anywhere, `IMG_`, eight digits, an underscore, six digits,
`_AATP`, exactly four digits, and then a literal dot. -/
def SpecImageName (s : List Char) : Prop :=
  ∃ pre d8 d6 d4 post,
    s = pre ++ ['I', 'M', 'G', '_'] ++ d8 ++ ['_'] ++ d6 ++
        ['_', 'A', 'A', 'T', 'P'] ++ d4 ++ '.' :: post ∧
    d8.length = 8 ∧ d6.length = 6 ∧ d4.length = 4 ∧
    (∀ c ∈ d8, c.isDigit = true) ∧ (∀ c ∈ d6, c.isDigit = true) ∧
    (∀ c ∈ d4, c.isDigit = true)

/-- The invariant claimed for every reachable state. -/
def StateInv (len : Nat) (st : BisectState) : Prop :=
  0 ≤ st.left ∧ st.left ≤ st.current_index ∧
    st.current_index ≤ st.right ∧ st.right < (len : Int)

/-- The cursor-recompute property: `current_index` is the floor of
`(left + right) / 2`. -/
def CurInv (st : BisectState) : Prop :=
  st.current_index = (st.left + st.right).fdiv 2

/-- Claim C1: the claimed invariant `0 ≤ low ≤ cursor ≤ high < len(Catalog)` fails
on a reachable state: with a catalog of 2 items the initial state is
`(0, 1, 0)` and the advance-left command `p` produces `(0, -1, -1)`. -/
theorem reachable_state_violates_invariant :
    ∃ s, Reaches 2 s ∧ s.st = ⟨0, -1, -1⟩ ∧ ¬ StateInv 2 s.st := by
  refine ⟨(processCommand ⟨initState 2, []⟩ ['p']).1,
    Reaches.step _ _ Reaches.init, by decide, ?_⟩
  simp only [StateInv]
  decide

example :
    parse_image_filename ⟨( "IMG_20230101_120000_AATP0001.jpg".toList )⟩ =
      some ⟨⟨( "IMG_20230101_120000_AATP0001.jpg".toList )⟩,
        ( "20230101_120000".toList ), 1⟩ := by decide

example :
    parse_image_filename ⟨( "xIMG_20230101_120000_AATP0001.x".toList )⟩ ≠ none := by
  decide

example :
    parse_image_filename ⟨( "IMG_20230101_120000_AATP00012.jpg".toList )⟩ = none := by
  decide

example :
    parse_image_filename ⟨( "IMG_20230101_120000_AATP001.jpg".toList )⟩ = none := by
  decide

example :
    parse_image_filename ⟨( "IMG_20230101_120000_AATP0001".toList )⟩ = none := by
  decide

example :
    ([⟨( "IMG_20230102_000000_AATP0002.jpg".toList )⟩,
        ⟨( "bad.jpg".toList )⟩,
        ⟨( "IMG_20230101_000000_AATP0009.jpg".toList )⟩] :
      List PyPath).filterMap parse_image_filename =
    [⟨⟨( "IMG_20230102_000000_AATP0002.jpg".toList )⟩,
        ( "20230102_000000".toList ), 2⟩,
      ⟨⟨( "IMG_20230101_000000_AATP0009.jpg".toList )⟩,
        ( "20230101_000000".toList ), 9⟩] := by decide

example : initState 7 = ⟨0, 6, 3⟩ := by decide

example :
    (processCommand ⟨initState 7, []⟩ ['n']).1.st = ⟨4, 6, 5⟩ := by decide

example :
    (processCommand ⟨initState 2, []⟩ ['p']).1.st = ⟨0, -1, -1⟩ := by decide

example :
    (processCommand ⟨⟨4, 6, 5⟩, [⟨0, 6, 3⟩]⟩ ['r', 'x']).1 =
      ⟨⟨0, 6, 3⟩, []⟩ := by decide

example :
    (processCommand ⟨⟨4, 6, 5⟩, []⟩ (['r', ' ', 'a', 'b', 'c'])).2 =
      .invalidRedoCount := by decide

example :
    (processCommand ⟨⟨4, 6, 5⟩, []⟩ (['r', ' ', '2'])).2 =
      .redoTooMany 2 0 := by decide

example :
    (processCommand ⟨⟨4, 6, 5⟩, [⟨0, 6, 3⟩]⟩ ([' ', 'R', ' ', '1', '\t'])).1 =
      ⟨⟨0, 6, 3⟩, []⟩ := by decide

example :
    (processCommand ⟨⟨4, 6, 5⟩, []⟩ (['x', 'y'])).2 = .unknown := by decide

/-- Claim C2: on a state with `left < right`, `n` pushes the current state and
sets `left = current_index + 1`, recomputing the cursor as the floor of
`(left + right) / 2`; `p` symmetrically sets `right = current_index - 1`;
on a state with `left = right` both commands leave the session unchanged
and report that the range cannot be narrowed. -/
theorem narrowing_command_spec (s : Session) :
    (s.st.left < s.st.right →
      processCommand s ['n'] =
        (⟨⟨s.st.current_index + 1, s.st.right,
            (s.st.current_index + 1 + s.st.right).fdiv 2⟩, s.st :: s.history⟩,
          .narrowed ((s.st.current_index + 1 + s.st.right).fdiv 2)) ∧
      processCommand s ['p'] =
        (⟨⟨s.st.left, s.st.current_index - 1,
            (s.st.left + (s.st.current_index - 1)).fdiv 2⟩, s.st :: s.history⟩,
          .narrowed ((s.st.left + (s.st.current_index - 1)).fdiv 2))) ∧
    (s.st.left = s.st.right →
      processCommand s ['n'] = (s, .cannotBisect) ∧
      processCommand s ['p'] = (s, .cannotBisect)) := by
  have hn : processCommand s ['n'] =
      if s.st.left < s.st.right then
        (⟨⟨s.st.current_index + 1, s.st.right,
            (s.st.current_index + 1 + s.st.right).fdiv 2⟩, s.st :: s.history⟩,
          .narrowed ((s.st.current_index + 1 + s.st.right).fdiv 2))
      else (s, .cannotBisect) := rfl
  have hp : processCommand s ['p'] =
      if s.st.left < s.st.right then
        (⟨⟨s.st.left, s.st.current_index - 1,
            (s.st.left + (s.st.current_index - 1)).fdiv 2⟩, s.st :: s.history⟩,
          .narrowed ((s.st.left + (s.st.current_index - 1)).fdiv 2))
      else (s, .cannotBisect) := rfl
  constructor
  · intro h
    rw [hn, hp, if_pos h, if_pos h]
    exact ⟨rfl, rfl⟩
  · intro h
    rw [hn, hp, if_neg (by omega), if_neg (by omega)]
    exact ⟨rfl, rfl⟩

/-- Witness for `narrowing_command_spec` at concrete sessions: a 7-item
catalog's initial state narrows right to `(4, 6, 5)`, and a collapsed
range `(4, 4, 4)` rejects both narrowing commands. -/
theorem narrowing_command_spec_witness :
    (processCommand ⟨⟨0, 6, 3⟩, []⟩ ['n']).1.st = ⟨4, 6, 5⟩ ∧
    processCommand ⟨⟨4, 4, 4⟩, []⟩ ['n'] = (⟨⟨4, 4, 4⟩, []⟩, .cannotBisect) := by
  constructor
  · rw [((narrowing_command_spec ⟨⟨0, 6, 3⟩, []⟩).1 (by decide)).1]
    decide
  · exact ((narrowing_command_spec ⟨⟨4, 4, 4⟩, []⟩).2 (by decide)).1

/-- Claim C5: the worked example from the spec, on a catalog of 7 items:
initial `(0,6,3)`; `n` gives `(4,6,5)`; `p` gives `(4,4,4)`; `r` twice
restores `(4,6,5)` then `(0,6,3)`; a third `r` is rejected, reporting a
history depth of 0. -/
theorem seven_item_example_trace :
    (⟨initState 7, []⟩ : Session).st = ⟨0, 6, 3⟩ ∧
    (processCommand ⟨initState 7, []⟩ ['n']).1.st = ⟨4, 6, 5⟩ ∧
    (processCommand (processCommand ⟨initState 7, []⟩ ['n']).1 ['p']).1.st =
      ⟨4, 4, 4⟩ ∧
    (processCommand (processCommand
        (processCommand ⟨initState 7, []⟩ ['n']).1 ['p']).1 ['r']).1.st =
      ⟨4, 6, 5⟩ ∧
    (processCommand (processCommand (processCommand
        (processCommand ⟨initState 7, []⟩ ['n']).1 ['p']).1 ['r']).1 ['r']).1 =
      ⟨⟨0, 6, 3⟩, []⟩ ∧
    (processCommand ⟨⟨0, 6, 3⟩, []⟩ ['r']) =
      (⟨⟨0, 6, 3⟩, []⟩, .redoTooMany 1 0) := by
  decide

/-- Claim C8 counterexample: the line `"rx"` is none of `n`, `p`, `q`, `r`,
`r <integer>`, yet from the reachable session `((4,6,5), [(0,6,3)])` of a
7-item catalog it is NOT reported as an unrecognized command: it enters
the redo branch, reverts the last move, and changes the state. -/
theorem r_typo_is_not_unknown :
    (processCommand ⟨⟨4, 6, 5⟩, [⟨0, 6, 3⟩]⟩ ['r', 'x']).2 ≠ .unknown ∧
    (processCommand ⟨⟨4, 6, 5⟩, [⟨0, 6, 3⟩]⟩ ['r', 'x']).1 ≠
      ⟨⟨4, 6, 5⟩, [⟨0, 6, 3⟩]⟩ ∧
    Reaches 7 ⟨⟨4, 6, 5⟩, [⟨0, 6, 3⟩]⟩ := by
  refine ⟨by decide, by decide, ?_⟩
  have h : (⟨⟨4, 6, 5⟩, [⟨0, 6, 3⟩]⟩ : Session) =
      (processCommand ⟨initState 7, []⟩ ['n']).1 := by decide
  rw [h]
  exact Reaches.step _ _ Reaches.init

/-- Claim C8, amended: any input line whose stripped, lowercased form is not
`n`, `p`, `q` and does not start with the letter `r` is reported as an
unknown command and leaves the session (state and history) unchanged. -/
theorem unknown_command_noop (s : Session) (line : List Char)
    (hq : pyLower (pyStrip line) ≠ ['q'])
    (hn : pyLower (pyStrip line) ≠ ['n'])
    (hp : pyLower (pyStrip line) ≠ ['p'])
    (hr : (pyLower (pyStrip line)).head? ≠ some 'r') :
    processCommand s line = (s, .unknown) := by
  simp only [processCommand]
  rw [if_neg hq, if_neg hn, if_neg hp, if_neg hr]

/-- Witness for `unknown_command_noop`: the line `"xyz"`. -/
theorem unknown_command_noop_witness :
    processCommand ⟨⟨0, 6, 3⟩, []⟩ ['x', 'y', 'z'] = (⟨⟨0, 6, 3⟩, []⟩, .unknown) :=
  unknown_command_noop ⟨⟨0, 6, 3⟩, []⟩ ['x', 'y', 'z']
    (by decide) (by decide) (by decide) (by decide)

/-- Claim C4: for a revert command (a line whose normalised form starts with
`r`), a second token that fails to parse as an integer is rejected with
the invalid-count error and no change; a parsed count that is not
positive is rejected with no change; a parsed count exceeding the history
depth is rejected reporting the actual depth `s.history.length`, with no
partial pop; and with no second token the count defaults to 1. -/
theorem revert_argument_checks (s : Session) (line : List Char)
    (hr : (pyLower (pyStrip line)).head? = some 'r') :
    (((pySplit (pyLower (pyStrip line))).drop 1).head? = none →
        processCommand s line = redoStep s 1) ∧
    (∀ tok, ((pySplit (pyLower (pyStrip line))).drop 1).head? = some tok →
      (pyInt tok = none → processCommand s line = (s, .invalidRedoCount)) ∧
      (∀ k : Int, pyInt tok = some k → k ≤ 0 →
          processCommand s line = (s, .redoNotPositive)) ∧
      (∀ k : Int, pyInt tok = some k → (s.history.length : Int) < k →
          processCommand s line = (s, .redoTooMany k s.history.length))) := by
  have hq : pyLower (pyStrip line) ≠ ['q'] := by
    intro h; rw [h] at hr; exact absurd hr (by decide)
  have hn : pyLower (pyStrip line) ≠ ['n'] := by
    intro h; rw [h] at hr; exact absurd hr (by decide)
  have hp : pyLower (pyStrip line) ≠ ['p'] := by
    intro h; rw [h] at hr; exact absurd hr (by decide)
  have hred : processCommand s line =
      match ((pySplit (pyLower (pyStrip line))).drop 1).head? with
      | none => redoStep s 1
      | some tok =>
        match pyInt tok with
        | none => (s, .invalidRedoCount)
        | some k => redoStep s k := by
    simp only [processCommand]
    rw [if_neg hq, if_neg hn, if_neg hp, if_pos hr]
  constructor
  · intro h0
    rw [hred, h0]
  · intro tok htok
    refine ⟨?_, ?_, ?_⟩
    · intro hbad
      rw [hred, htok]
      show (match pyInt tok with
        | none => (s, LoopEvent.invalidRedoCount)
        | some k => redoStep s k) = _
      rw [hbad]
    · intro k hk hk0
      rw [hred, htok]
      show (match pyInt tok with
        | none => (s, LoopEvent.invalidRedoCount)
        | some k => redoStep s k) = _
      rw [hk]
      simp only [redoStep, if_pos hk0]
    · intro k hk hbig
      have hk0 : ¬ k ≤ 0 := by omega
      rw [hred, htok]
      show (match pyInt tok with
        | none => (s, LoopEvent.invalidRedoCount)
        | some k => redoStep s k) = _
      rw [hk]
      simp only [redoStep, if_neg hk0, if_pos hbig]

/-- Witness for `revert_argument_checks`: on the session `((0,6,3), [])`,
`"r abc"` is rejected as invalid, `"r -2"` as nonpositive, `"r 2"` as
exceeding the empty history (reporting depth 0), and `"r"` defaults to a
count of 1. -/
theorem revert_argument_checks_witness :
    processCommand ⟨⟨0, 6, 3⟩, []⟩ ['r', ' ', 'a', 'b', 'c'] =
      (⟨⟨0, 6, 3⟩, []⟩, .invalidRedoCount) ∧
    processCommand ⟨⟨0, 6, 3⟩, []⟩ ['r', ' ', '-', '2'] =
      (⟨⟨0, 6, 3⟩, []⟩, .redoNotPositive) ∧
    processCommand ⟨⟨0, 6, 3⟩, []⟩ ['r', ' ', '2'] =
      (⟨⟨0, 6, 3⟩, []⟩, .redoTooMany 2 0) ∧
    processCommand ⟨⟨0, 6, 3⟩, []⟩ ['r'] = redoStep ⟨⟨0, 6, 3⟩, []⟩ 1 := by
  refine ⟨?_, ?_, ?_, ?_⟩
  · exact ((revert_argument_checks ⟨⟨0, 6, 3⟩, []⟩ ['r', ' ', 'a', 'b', 'c']
      (by decide)).2 ['a', 'b', 'c'] (by decide)).1 (by decide)
  · exact (((revert_argument_checks ⟨⟨0, 6, 3⟩, []⟩ ['r', ' ', '-', '2']
      (by decide)).2 ['-', '2'] (by decide)).2.1 (-2) (by decide) (by decide))
  · exact (((revert_argument_checks ⟨⟨0, 6, 3⟩, []⟩ ['r', ' ', '2']
      (by decide)).2 ['2'] (by decide)).2.2 2 (by decide) (by decide))
  · exact (revert_argument_checks ⟨⟨0, 6, 3⟩, []⟩ ['r'] (by decide)).1 (by decide)

/-- A digit character is not Python whitespace. -/
lemma not_space_of_isDigit {c : Char} (h : c.isDigit = true) : isPySpace c = false := by
  cases hb : isPySpace c
  · rfl
  · exfalso
    have h6 : ((((c = ' ' ∨ c = '\t') ∨ c = '\n') ∨ c = '\x0d') ∨ c = '\x0b') ∨
        c = '\x0c' := by
      simpa [isPySpace, Bool.or_eq_true, decide_eq_true_eq] using hb
    rcases h6 with ((((rfl | rfl) | rfl) | rfl) | rfl) | rfl <;> exact absurd h (by decide)

/-- Code-point bounds of a digit character. -/
lemma toNat_of_isDigit {c : Char} (h : c.isDigit = true) :
    48 ≤ c.toNat ∧ c.toNat ≤ 57 := by
  have h1 : (48 ≤ c.val) ∧ (c.val ≤ 57) := by
    simpa [Char.isDigit, Bool.and_eq_true, decide_eq_true_eq] using h
  exact ⟨BitVec.le_def.mp (UInt32.le_def.mp h1.1), BitVec.le_def.mp (UInt32.le_def.mp h1.2)⟩

/-- `str.lower()` leaves digit characters unchanged. -/
lemma toLower_of_isDigit {c : Char} (h : c.isDigit = true) : c.toLower = c := by
  have h2 := toNat_of_isDigit h
  simp only [Char.toLower]
  rw [if_neg (by omega)]

lemma dropWhile_space_eq_self (l : List Char) (h : ∀ c ∈ l, isPySpace c = false) :
    l.dropWhile isPySpace = l := by
  cases l with
  | nil => rfl
  | cons a t =>
    rw [List.dropWhile_cons]
    simp [h a (List.mem_cons_self a t)]

/-- `str.strip()` leaves a string with no whitespace anywhere unchanged. -/
lemma pyStrip_no_space (l : List Char) (h : ∀ c ∈ l, isPySpace c = false) :
    pyStrip l = l := by
  unfold pyStrip
  rw [dropWhile_space_eq_self l h,
    dropWhile_space_eq_self l.reverse (by intro c hc; exact h c (List.mem_reverse.mp hc)),
    List.reverse_reverse]

lemma map_toLower_digits (ds : List Char) (h : ∀ c ∈ ds, c.isDigit = true) :
    ds.map Char.toLower = ds := by
  induction ds with
  | nil => rfl
  | cons c rest ih =>
    rw [List.map_cons, toLower_of_isDigit (h c (List.mem_cons_self c rest)),
      ih (fun x hx => h x (List.mem_cons_of_mem c hx))]

lemma dropWhile_cons_of_neg {p : Char → Bool} {a : Char} {t : List Char}
    (h : p a = false) : (a :: t).dropWhile p = a :: t := by
  rw [List.dropWhile_cons, h]
  simp

/-- Stripping the command line `r <digits>` changes nothing: it starts
with `r` and ends with a digit. -/
lemma pyStrip_r_digits (ds : List Char) (hne : ds ≠ [])
    (hdig : ∀ c ∈ ds, c.isDigit = true) :
    pyStrip ('r' :: ' ' :: ds) = 'r' :: ' ' :: ds := by
  rcases List.eq_nil_or_concat ds with rfl | ⟨ds2, c, rfl⟩
  · exact absurd rfl hne
  simp only [List.concat_eq_append] at hdig ⊢
  have hc : isPySpace c = false := not_space_of_isDigit (hdig c (by simp))
  have h1 : ('r' :: ' ' :: (ds2 ++ [c])).dropWhile isPySpace =
      'r' :: ' ' :: (ds2 ++ [c]) := dropWhile_cons_of_neg (by decide)
  have h2 : ('r' :: ' ' :: (ds2 ++ [c])).reverse = c :: (ds2.reverse ++ [' ', 'r']) := by
    simp
  unfold pyStrip
  rw [h1, h2, dropWhile_cons_of_neg hc, ← h2, List.reverse_reverse]

/-- Lowercasing the command line `r <digits>` changes nothing. -/
lemma pyLower_r_digits (ds : List Char) (hdig : ∀ c ∈ ds, c.isDigit = true) :
    pyLower ('r' :: ' ' :: ds) = 'r' :: ' ' :: ds := by
  unfold pyLower
  rw [List.map_cons, List.map_cons, map_toLower_digits ds hdig]
  rfl

lemma pySplitAux_no_space (l : List Char) :
    ∀ acc : List Char, (∀ c ∈ l, isPySpace c = false) → (acc ≠ [] ∨ l ≠ []) →
      pySplitAux l acc = [acc.reverse ++ l] := by
  induction l with
  | nil =>
    intro acc _ hne
    have ha : acc ≠ [] := by
      rcases hne with h | h
      · exact h
      · exact absurd rfl h
    simp [pySplitAux, ha]
  | cons c rest ih =>
    intro acc h _
    have hc : isPySpace c = false := h c (List.mem_cons_self c rest)
    simp only [pySplitAux, hc]
    rw [if_neg (by simp)]
    rw [ih (c :: acc) (fun x hx => h x (List.mem_cons_of_mem c hx)) (Or.inl (by simp))]
    simp

/-- Splitting the command line `r <digits>` yields the two tokens
`["r", digits]`. -/
lemma pySplit_r_digits (ds : List Char) (hne : ds ≠ [])
    (hdig : ∀ c ∈ ds, c.isDigit = true) :
    pySplit ('r' :: ' ' :: ds) = [['r'], ds] := by
  have h1 : pySplit ('r' :: ' ' :: ds) = ['r'] :: pySplitAux ds [] := rfl
  rw [h1, pySplitAux_no_space ds []
    (fun c hc => not_space_of_isDigit (hdig c hc)) (Or.inr hne)]
  rfl

lemma parseDigitTail_digits (l : List Char) :
    ∀ acc : Nat, (∀ c ∈ l, c.isDigit = true) →
      parseDigitTail acc l =
        some (l.foldl (fun a c => a * 10 + (c.toNat - 48)) acc) := by
  induction l with
  | nil => intro acc _; rfl
  | cons c rest ih =>
    intro acc h
    have hc := h c (List.mem_cons_self c rest)
    have hstep : parseDigitTail acc (c :: rest) =
        parseDigitTail (acc * 10 + (c.toNat - 48)) rest := by
      conv_lhs => rw [parseDigitTail.eq_def]
      dsimp only
      rw [if_pos hc]
    rw [hstep, List.foldl_cons]
    exact ih _ (fun x hx => h x (List.mem_cons_of_mem c hx))

lemma parseDigits_digits (l : List Char) (hne : l ≠ [])
    (hdig : ∀ c ∈ l, c.isDigit = true) :
    parseDigits l = some (digitsToNat l) := by
  cases l with
  | nil => exact absurd rfl hne
  | cons c rest =>
    have hc := hdig c (List.mem_cons_self c rest)
    simp only [parseDigits, hc, if_true]
    rw [parseDigitTail_digits rest _ (fun x hx => hdig x (List.mem_cons_of_mem c hx))]
    simp [digitsToNat]

/-- `int()` of a nonempty all-digit token returns its decimal value. -/
lemma pyInt_digits (l : List Char) (hne : l ≠ [])
    (hdig : ∀ c ∈ l, c.isDigit = true) :
    pyInt l = some ((digitsToNat l : Nat) : Int) := by
  have hstrip : pyStrip l = l :=
    pyStrip_no_space l (fun c hc => not_space_of_isDigit (hdig c hc))
  cases hl : l with
  | nil => exact absurd hl hne
  | cons c rest =>
    have hc : c.isDigit = true := hdig c (by rw [hl]; exact List.mem_cons_self c rest)
    have hplus : ¬ c = '+' := by intro h; rw [h] at hc; exact absurd hc (by decide)
    have hminus : ¬ c = '-' := by intro h; rw [h] at hc; exact absurd hc (by decide)
    unfold pyInt
    rw [← hl, hstrip, hl]
    show (if c = '+' then (parseDigits rest).map Int.ofNat
      else if c = '-' then (parseDigits rest).map (fun n => -(n : Int))
      else (parseDigits (c :: rest)).map Int.ofNat) = _
    rw [if_neg hplus, if_neg hminus, ← hl,
      parseDigits_digits l (by rw [hl]; simp) hdig]
    rfl

lemma popLoop_preserve (P : BisectState → Prop) :
    ∀ (n : Nat) (st : BisectState) (h : List BisectState), P st → (∀ x ∈ h, P x) →
      P (popLoop n st h).1 ∧ ∀ x ∈ (popLoop n st h).2, P x
  | 0, _, _, hst, hh => ⟨hst, hh⟩
  | n + 1, st, [], hst, hh => popLoop_preserve P n st [] hst hh
  | n + 1, _, top :: rest, _, hh =>
      popLoop_preserve P n top rest (hh top (List.mem_cons_self top rest))
        (fun x hx => hh x (List.mem_cons_of_mem top hx))

lemma popLoop_exact :
    ∀ (k : Nat) (st top : BisectState) (rest : List BisectState), k ≤ rest.length →
      popLoop (k + 1) st (top :: rest) = ((top :: rest).getD k st, rest.drop k) := by
  intro k
  induction k with
  | zero => intro st top rest _; rfl
  | succ m ih =>
    intro st top rest hlen
    cases rest with
    | nil => simp at hlen
    | cons r2 rest2 =>
      show popLoop (m + 1) top (r2 :: rest2) = _
      have hl2 : m ≤ rest2.length := by simpa using hlen
      rw [ih top r2 rest2 hl2]
      have hmem : m < (r2 :: rest2).length := by simp; omega
      have hmem2 : m + 1 < (top :: r2 :: rest2).length := by simp; omega
      rw [List.getD_eq_getElem _ _ hmem, List.getD_eq_getElem _ _ hmem2]
      rfl

/-- The `n` branch of the loop body, as a conditional-free equation. -/
lemma processCommand_n_eq (s : Session) :
    processCommand s ['n'] =
      if s.st.left < s.st.right then
        (⟨⟨s.st.current_index + 1, s.st.right,
            (s.st.current_index + 1 + s.st.right).fdiv 2⟩, s.st :: s.history⟩,
          .narrowed ((s.st.current_index + 1 + s.st.right).fdiv 2))
      else (s, .cannotBisect) := rfl

/-- The `p` branch of the loop body, as a conditional-free equation. -/
lemma processCommand_p_eq (s : Session) :
    processCommand s ['p'] =
      if s.st.left < s.st.right then
        (⟨⟨s.st.left, s.st.current_index - 1,
            (s.st.left + (s.st.current_index - 1)).fdiv 2⟩, s.st :: s.history⟩,
          .narrowed ((s.st.left + (s.st.current_index - 1)).fdiv 2))
      else (s, .cannotBisect) := rfl

/-- A bare `r` on a session with nonempty history pops one state. -/
lemma processCommand_bare_r (st hd : BisectState) (tl : List BisectState) :
    processCommand ⟨st, hd :: tl⟩ ['r'] = (⟨hd, tl⟩, .redid 1 hd.current_index) := by
  show redoStep ⟨st, hd :: tl⟩ 1 = _
  unfold redoStep
  rw [if_neg (by decide : ¬ (1 : Int) ≤ 0),
    if_neg (show ¬ (((hd :: tl).length : Nat) : Int) < 1 by simp)]
  rfl

/-- One step of the loop preserves the cursor-recompute property, on the
live state and on every history entry. -/
lemma curInv_step (s : Session) (line : List Char)
    (h1 : CurInv s.st) (h2 : ∀ x ∈ s.history, CurInv x) :
    CurInv (processCommand s line).1.st ∧
      ∀ x ∈ (processCommand s line).1.history, CurInv x := by
  have hredo : ∀ k : Int, CurInv (redoStep s k).1.st ∧
      ∀ x ∈ (redoStep s k).1.history, CurInv x := by
    intro k
    unfold redoStep
    split
    · exact ⟨h1, h2⟩
    split
    · exact ⟨h1, h2⟩
    · exact popLoop_preserve CurInv k.toNat s.st s.history h1 h2
  have hpush : ∀ x ∈ s.st :: s.history, CurInv x := by
    intro x hx
    rcases List.mem_cons.mp hx with rfl | hx
    · exact h1
    · exact h2 x hx
  simp only [processCommand]
  split
  · exact ⟨h1, h2⟩
  split
  · split
    · exact ⟨rfl, hpush⟩
    · exact ⟨h1, h2⟩
  split
  · split
    · exact ⟨rfl, hpush⟩
    · exact ⟨h1, h2⟩
  split
  · split
    · exact hredo 1
    split
    · exact ⟨h1, h2⟩
    · exact hredo _
  · exact ⟨h1, h2⟩

/-- Every reachable session satisfies the cursor-recompute property, on
the live state and on every saved history entry. -/
lemma reaches_cursor (len : Nat) (s : Session) (h : Reaches len s) :
    CurInv s.st ∧ ∀ x ∈ s.history, CurInv x := by
  induction h with
  | init => exact ⟨rfl, by intro x hx; exact absurd hx (List.not_mem_nil x)⟩
  | step s' line _ ih => exact curInv_step s' line ih.1 ih.2

/-- Claim C9: from any reachable state with `right = left + 1` (where the
cursor-recompute property forces `current_index = left`), the `p` command
produces `right = left - 1` and `current_index = left - 1`, and that new
cursor is the index surfaced for display; with `left = 0` it is `-1`. -/
theorem advance_left_adjacent_underflow (len : Nat) (s : Session)
    (hr : Reaches len s) (h : s.st.right = s.st.left + 1) :
    s.st.current_index = s.st.left ∧
    (processCommand s ['p']).1.st = ⟨s.st.left, s.st.left - 1, s.st.left - 1⟩ ∧
    (processCommand s ['p']).2 = .narrowed (s.st.left - 1) := by
  have hc := (reaches_cursor len s hr).1
  have hcur : s.st.current_index = s.st.left := by
    rw [hc, h, Int.fdiv_eq_ediv _ (by decide)]
    omega
  have hlt : s.st.left < s.st.right := by omega
  have hfd : (s.st.left + (s.st.current_index - 1)).fdiv 2 = s.st.left - 1 := by
    rw [hcur, Int.fdiv_eq_ediv _ (by decide)]
    omega
  rw [processCommand_p_eq, if_pos hlt]
  refine ⟨hcur, ?_, ?_⟩
  · dsimp only
    rw [hfd, hcur]
  · dsimp only
    rw [hfd]

/-- Witness for `advance_left_adjacent_underflow`: a catalog of 2 items;
`p` from the initial state `(0, 1, 0)` yields the state `(0, -1, -1)` and
surfaces index `-1`, which is outside `[0, 2)`. -/
theorem advance_left_adjacent_underflow_witness :
    (processCommand ⟨initState 2, []⟩ ['p']).1.st = ⟨0, -1, -1⟩ ∧
    (processCommand ⟨initState 2, []⟩ ['p']).2 = .narrowed (-1) ∧
    ¬ (0 ≤ (-1 : Int)) := by
  have h := advance_left_adjacent_underflow 2 ⟨initState 2, []⟩ Reaches.init (by decide)
  refine ⟨?_, ?_, by decide⟩
  · rw [h.2.1]
    decide
  · rw [h.2.2]
    decide

/-- Claim C3: the command `r <n>` (for `n` a nonempty decimal numeral with
value `k`, `0 < k ≤` history depth) pops exactly `k` entries: the live
state becomes the `k`-th entry from the top of the stack, the popped
entries are gone, and the restored cursor is surfaced; moreover a
narrowing move (`n` or `p`) followed by a bare `r` restores the exact
pre-move session. -/
theorem revert_pops_exactly (s : Session) (ds : List Char) (k : Nat)
    (hne : ds ≠ []) (hdig : ∀ c ∈ ds, c.isDigit = true)
    (hval : digitsToNat ds = k) (hpos : 0 < k) (hlen : k ≤ s.history.length) :
    processCommand s ('r' :: ' ' :: ds) =
      (⟨s.history.getD (k - 1) s.st, s.history.drop k⟩,
        .redid (k : Int) ((s.history.getD (k - 1) s.st).current_index)) ∧
    (∀ t : Session, t.st.left < t.st.right →
      (processCommand (processCommand t ['n']).1 ['r']).1 = t ∧
      (processCommand (processCommand t ['p']).1 ['r']).1 = t) := by
  constructor
  · have hcmd : pyLower (pyStrip ('r' :: ' ' :: ds)) = 'r' :: ' ' :: ds := by
      rw [pyStrip_r_digits ds hne hdig, pyLower_r_digits ds hdig]
    have hq : pyLower (pyStrip ('r' :: ' ' :: ds)) ≠ ['q'] := by
      rw [hcmd]; simp
    have hn : pyLower (pyStrip ('r' :: ' ' :: ds)) ≠ ['n'] := by
      rw [hcmd]; simp
    have hp : pyLower (pyStrip ('r' :: ' ' :: ds)) ≠ ['p'] := by
      rw [hcmd]; simp
    have hrh : (pyLower (pyStrip ('r' :: ' ' :: ds))).head? = some 'r' := by
      rw [hcmd]; rfl
    simp only [processCommand]
    rw [if_neg hq, if_neg hn, if_neg hp, if_pos hrh, hcmd,
      pySplit_r_digits ds hne hdig]
    show (match pyInt ds with
      | none => (s, LoopEvent.invalidRedoCount)
      | some k => redoStep s k) = _
    rw [pyInt_digits ds hne hdig, hval]
    show redoStep s (k : Int) = _
    unfold redoStep
    rw [if_neg (by omega), if_neg (by omega)]
    have htn : ((k : Int)).toNat = k := Int.toNat_ofNat k
    rcases Nat.exists_eq_add_of_lt hpos with ⟨m, hm⟩
    cases hh : s.history with
    | nil => rw [hh] at hlen; simp at hlen; omega
    | cons top rest =>
      have hk : k = m + 1 := by omega
      subst hk
      have hml : m ≤ rest.length := by
        rw [hh] at hlen; simp at hlen; omega
      rw [htn, popLoop_exact m s.st top rest hml]
      simp
  · intro t ht
    constructor
    · rw [processCommand_n_eq, if_pos ht, processCommand_bare_r]
    · rw [processCommand_p_eq, if_pos ht, processCommand_bare_r]

/-- Witness for `revert_pops_exactly`: on the session
`((4,4,4), [(4,6,5), (0,6,3)])` of the 7-item example, `r 2` pops both
history entries, restoring `(0,6,3)` and surfacing index 3; and `n` from
`((0,6,3), [])` followed by bare `r` restores that session exactly. -/
theorem revert_pops_exactly_witness :
    processCommand ⟨⟨4, 4, 4⟩, [⟨4, 6, 5⟩, ⟨0, 6, 3⟩]⟩ ['r', ' ', '2'] =
      (⟨⟨0, 6, 3⟩, []⟩, .redid 2 3) ∧
    (processCommand (processCommand ⟨⟨0, 6, 3⟩, []⟩ ['n']).1 ['r']).1 =
      ⟨⟨0, 6, 3⟩, []⟩ := by
  have h := revert_pops_exactly ⟨⟨4, 4, 4⟩, [⟨4, 6, 5⟩, ⟨0, 6, 3⟩]⟩ ['2'] 2
    (by decide) (by decide) (by decide) (by decide) (by decide)
  constructor
  · rw [h.1]
    decide
  · exact (h.2 ⟨⟨0, 6, 3⟩, []⟩ (by decide)).1

lemma charEq_of_toNat_eq {a b : Char} (h : a.toNat = b.toNat) : a = b :=
  Char.ext (UInt32.eq_of_toBitVec_eq (BitVec.eq_of_toNat_eq h))

lemma strLt_cons_true {aa bb : Char} {as bs : List Char}
    (h : strLt (aa :: as) (bb :: bs) = true) :
    aa.toNat < bb.toNat ∨ (aa.toNat = bb.toNat ∧ strLt as bs = true) := by
  revert h
  show (if aa.toNat < bb.toNat then true
    else if bb.toNat < aa.toNat then false else strLt as bs) = true → _
  split_ifs with h1 h2
  · intro _
    exact Or.inl h1
  · intro h
    exact absurd h (by simp)
  · intro h
    exact Or.inr ⟨by omega, h⟩

lemma strLt_cons_of_lt {aa bb : Char} (h : aa.toNat < bb.toNat)
    (as bs : List Char) : strLt (aa :: as) (bb :: bs) = true := by
  show (if aa.toNat < bb.toNat then true
    else if bb.toNat < aa.toNat then false else strLt as bs) = true
  rw [if_pos h]

lemma strLt_cons_of_eq {aa bb : Char} (h : aa.toNat = bb.toNat)
    {as bs : List Char} (ht : strLt as bs = true) :
    strLt (aa :: as) (bb :: bs) = true := by
  show (if aa.toNat < bb.toNat then true
    else if bb.toNat < aa.toNat then false else strLt as bs) = true
  rw [if_neg (by omega), if_neg (by omega)]
  exact ht

lemma strLt_trans : ∀ (a b c : List Char),
    strLt a b = true → strLt b c = true → strLt a c = true := by
  intro a
  induction a with
  | nil =>
    intro b c hab hbc
    cases b with
    | nil => simp [strLt] at hab
    | cons bb bs =>
      cases c with
      | nil => simp [strLt] at hbc
      | cons cc cs => rfl
  | cons aa as ih =>
    intro b c hab hbc
    cases b with
    | nil => simp [strLt] at hab
    | cons bb bs =>
      cases c with
      | nil => simp [strLt] at hbc
      | cons cc cs =>
        rcases strLt_cons_true hab with h1 | ⟨h1, h1t⟩ <;>
          rcases strLt_cons_true hbc with h2 | ⟨h2, h2t⟩
        · exact strLt_cons_of_lt (by omega) as cs
        · exact strLt_cons_of_lt (by omega) as cs
        · exact strLt_cons_of_lt (by omega) as cs
        · exact strLt_cons_of_eq (by omega) (ih bs cs h1t h2t)

lemma strLt_trichotomy : ∀ (a b : List Char),
    strLt a b = true ∨ a = b ∨ strLt b a = true := by
  intro a
  induction a with
  | nil =>
    intro b
    cases b with
    | nil => exact Or.inr (Or.inl rfl)
    | cons bb bs => exact Or.inl rfl
  | cons aa as ih =>
    intro b
    cases b with
    | nil => exact Or.inr (Or.inr rfl)
    | cons bb bs =>
      rcases Nat.lt_trichotomy aa.toNat bb.toNat with h | h | h
      · exact Or.inl (strLt_cons_of_lt h as bs)
      · rcases ih bs with h2 | h2 | h2
        · exact Or.inl (strLt_cons_of_eq h h2)
        · exact Or.inr (Or.inl (by rw [charEq_of_toNat_eq h, h2]))
        · exact Or.inr (Or.inr (strLt_cons_of_eq (by omega) h2))
      · exact Or.inr (Or.inr (strLt_cons_of_lt h bs as))

lemma keyLe_iff {x y : ImageInfo} : keyLe x y = true ↔
    strLt x.timestamp y.timestamp = true ∨
      (x.timestamp = y.timestamp ∧ x.atp_number ≤ y.atp_number) := by
  simp [keyLe, Bool.or_eq_true, Bool.and_eq_true, decide_eq_true_eq]

lemma keyLe_trans : ∀ (a b c : ImageInfo),
    keyLe a b = true → keyLe b c = true → keyLe a c = true := by
  intro a b c hab hbc
  rw [keyLe_iff] at hab hbc ⊢
  rcases hab with h1 | ⟨h1, h1n⟩ <;> rcases hbc with h2 | ⟨h2, h2n⟩
  · exact Or.inl (strLt_trans _ _ _ h1 h2)
  · exact Or.inl (h2 ▸ h1)
  · exact Or.inl (h1 ▸ h2)
  · exact Or.inr ⟨h1.trans h2, h1n.trans h2n⟩

lemma keyLe_total : ∀ (a b : ImageInfo), (keyLe a b || keyLe b a) = true := by
  intro a b
  rcases strLt_trichotomy a.timestamp b.timestamp with h | h | h
  · have : keyLe a b = true := keyLe_iff.mpr (Or.inl h)
    simp [this]
  · rcases Nat.le_total a.atp_number b.atp_number with hn | hn
    · have : keyLe a b = true := keyLe_iff.mpr (Or.inr ⟨h, hn⟩)
      simp [this]
    · have : keyLe b a = true := keyLe_iff.mpr (Or.inr ⟨h.symm, hn⟩)
      simp [this]
  · have : keyLe b a = true := keyLe_iff.mpr (Or.inl h)
    simp [this]

lemma keyLe_refl_of_eq {x y : ImageInfo} (h : sortKey x = sortKey y) :
    keyLe x y = true := by
  have h1 : x.timestamp = y.timestamp := congrArg Prod.fst h
  have h2 : x.atp_number = y.atp_number := congrArg Prod.snd h
  exact keyLe_iff.mpr (Or.inr ⟨h1, h2.le⟩)

/-- Claim C6: the catalog is sorted non-decreasing by the key
`(timestamp, atp_number)` — timestamp compared lexicographically first,
ATP number numerically second; it is a permutation of the parsed items
(paths whose names fail the pattern are dropped, in input order); and the
sort is stable: for every key value, the items carrying that key appear
in exactly their input order. -/
theorem sort_images_spec (ps : List PyPath) :
    ((sort_images ps).Pairwise fun a b => keyLe a b = true) ∧
    List.Perm (sort_images ps) (ps.filterMap parse_image_filename) ∧
    ∀ k : List Char × Nat,
      (sort_images ps).filter (fun x => decide (sortKey x = k)) =
        (ps.filterMap parse_image_filename).filter
          (fun x => decide (sortKey x = k)) := by
  refine ⟨List.sorted_mergeSort keyLe_trans keyLe_total _,
    List.mergeSort_perm _ keyLe, ?_⟩
  intro k
  have hmemkey : ∀ x ∈ (ps.filterMap parse_image_filename).filter
      (fun x => decide (sortKey x = k)), sortKey x = k := by
    intro x hx
    simpa using (List.mem_filter.mp hx).2
  have hpair : ((ps.filterMap parse_image_filename).filter
      (fun x => decide (sortKey x = k))).Pairwise (fun a b => keyLe a b = true) :=
    List.pairwise_of_forall_mem_list
      (fun a ha b hb => keyLe_refl_of_eq (by rw [hmemkey a ha, hmemkey b hb]))
  have hsub : List.Sublist ((ps.filterMap parse_image_filename).filter
        (fun x => decide (sortKey x = k))) (sort_images ps) :=
    List.sublist_mergeSort keyLe_trans keyLe_total hpair (List.filter_sublist _)
  have hsub2 : List.Sublist ((ps.filterMap parse_image_filename).filter
        (fun x => decide (sortKey x = k)))
      ((sort_images ps).filter (fun x => decide (sortKey x = k))) := by
    have h2 := hsub.filter (fun x => decide (sortKey x = k))
    rwa [List.filter_eq_self.mpr (fun a ha => by simpa using hmemkey a ha)] at h2
  have hlen : ((sort_images ps).filter (fun x => decide (sortKey x = k))).length =
      ((ps.filterMap parse_image_filename).filter
        (fun x => decide (sortKey x = k))).length :=
    ((List.mergeSort_perm _ keyLe).filter _).length_eq
  exact (hsub2.eq_of_length hlen.symm).symm

lemma dropLit_eq_some : ∀ (lit s r : List Char), dropLit lit s = some r → s = lit ++ r := by
  intro lit
  induction lit with
  | nil =>
    intro s r h
    simp [dropLit] at h
    simp [h]
  | cons c cs ih =>
    intro s r h
    cases s with
    | nil => simp [dropLit] at h
    | cons d ds =>
      revert h
      show (if d = c then dropLit cs ds else none) = some r → _
      split_ifs with hd
      · intro h
        subst hd
        rw [List.cons_append]
        exact congrArg (d :: ·) (ih ds r h)
      · intro h
        exact absurd h (by simp)

lemma dropLit_append : ∀ (lit r : List Char), dropLit lit (lit ++ r) = some r := by
  intro lit r
  induction lit with
  | nil => rfl
  | cons c cs ih =>
    show (if c = c then dropLit cs (cs ++ r) else none) = some r
    rw [if_pos rfl, ih]

lemma expectChar_eq_some : ∀ (c : Char) (s r : List Char),
    expectChar c s = some r → s = c :: r := by
  intro c s r h
  cases s with
  | nil => simp [expectChar] at h
  | cons d ds =>
    revert h
    show (if d = c then some ds else none) = some r → _
    split_ifs with hd
    · intro h
      simp at h
      rw [hd, h]
    · intro h
      exact absurd h (by simp)

lemma expectChar_cons : ∀ (c : Char) (r : List Char), expectChar c (c :: r) = some r := by
  intro c r
  show (if c = c then some r else none) = some r
  rw [if_pos rfl]

lemma grabDigits_eq_some : ∀ (n : Nat) (s ds r : List Char),
    grabDigits n s = some (ds, r) →
    s = ds ++ r ∧ ds.length = n ∧ ∀ c ∈ ds, c.isDigit = true := by
  intro n
  induction n with
  | zero =>
    intro s ds r h
    simp [grabDigits] at h
    obtain ⟨h1, h2⟩ := h
    subst h1
    subst h2
    simp
  | succ m ih =>
    intro s ds r h
    cases s with
    | nil => simp [grabDigits] at h
    | cons c cs =>
      revert h
      show (if c.isDigit then
          match grabDigits m cs with
          | some (ds2, r2) => some (c :: ds2, r2)
          | none => none
        else none) = some (ds, r) → _
      split_ifs with hd
      · cases hg : grabDigits m cs with
        | none =>
          intro h
          simp at h
        | some pr =>
          obtain ⟨ds2, r2⟩ := pr
          intro h
          simp only [Option.some.injEq, Prod.mk.injEq] at h
          obtain ⟨hds, hr⟩ := h
          obtain ⟨ih1, ih2, ih3⟩ := ih cs ds2 r2 hg
          subst hds
          subst hr
          refine ⟨by simp [ih1], by simp [ih2], ?_⟩
          intro x hx
          rcases List.mem_cons.mp hx with rfl | hx
          · exact hd
          · exact ih3 x hx
      · intro h
        exact absurd h (by simp)

lemma grabDigits_append : ∀ (ds r : List Char), (∀ c ∈ ds, c.isDigit = true) →
    grabDigits ds.length (ds ++ r) = some (ds, r) := by
  intro ds
  induction ds with
  | nil => intro r _; rfl
  | cons c cs ih =>
    intro r h
    show (if c.isDigit then
        match grabDigits cs.length (cs ++ r) with
        | some (ds2, r2) => some (c :: ds2, r2)
        | none => none
      else none) = some (c :: cs, r)
    rw [if_pos (h c (List.mem_cons_self c cs)), ih r (fun x hx => h x (List.mem_cons_of_mem c hx))]

/-- Inversion of an anchored match: the input decomposes as the pattern
demands. -/
lemma matchAt_eq_some {s ts : List Char} {num : Nat}
    (h : matchAt s = some (ts, num)) :
    ∃ d8 d6 d4 rest,
      s = ['I', 'M', 'G', '_'] ++ d8 ++ ['_'] ++ d6 ++
          ['_', 'A', 'A', 'T', 'P'] ++ d4 ++ '.' :: rest ∧
      d8.length = 8 ∧ d6.length = 6 ∧ d4.length = 4 ∧
      (∀ c ∈ d8, c.isDigit = true) ∧ (∀ c ∈ d6, c.isDigit = true) ∧
      (∀ c ∈ d4, c.isDigit = true) := by
  unfold matchAt at h
  simp only [Option.bind_eq_some, Option.map_eq_some'] at h
  obtain ⟨s1, h1, p8, h2, s3, h3, p6, h4, s5, h5, p4, h6, s7, h7, -⟩ := h
  have e1 : s = ['I', 'M', 'G', '_'] ++ s1 := dropLit_eq_some _ _ _ h1
  obtain ⟨e2, l8, dig8⟩ := grabDigits_eq_some 8 s1 p8.1 p8.2 h2
  have e3 : p8.2 = '_' :: s3 := expectChar_eq_some _ _ _ h3
  obtain ⟨e4, l6, dig6⟩ := grabDigits_eq_some 6 s3 p6.1 p6.2 h4
  have e5 : p6.2 = ['_', 'A', 'A', 'T', 'P'] ++ s5 := dropLit_eq_some _ _ _ h5
  obtain ⟨e6, l4, dig4⟩ := grabDigits_eq_some 4 s5 p4.1 p4.2 h6
  have e7 : p4.2 = '.' :: s7 := expectChar_eq_some _ _ _ h7
  refine ⟨p8.1, p6.1, p4.1, s7, ?_, l8, l6, l4, dig8, dig6, dig4⟩
  rw [e1, e2, e3, e4, e5, e6, e7]
  simp [List.append_assoc]

/-- Construction of an anchored match from a decomposition. -/
lemma matchAt_append (d8 d6 d4 rest : List Char)
    (h8 : d8.length = 8) (h6 : d6.length = 6) (h4 : d4.length = 4)
    (hd8 : ∀ c ∈ d8, c.isDigit = true) (hd6 : ∀ c ∈ d6, c.isDigit = true)
    (hd4 : ∀ c ∈ d4, c.isDigit = true) :
    matchAt (['I', 'M', 'G', '_'] ++ d8 ++ ['_'] ++ d6 ++
        ['_', 'A', 'A', 'T', 'P'] ++ d4 ++ '.' :: rest) =
      some (d8 ++ '_' :: d6, digitsToNat d4) := by
  have e0 : ['I', 'M', 'G', '_'] ++ d8 ++ ['_'] ++ d6 ++
      ['_', 'A', 'A', 'T', 'P'] ++ d4 ++ '.' :: rest =
      ['I', 'M', 'G', '_'] ++ (d8 ++ ('_' :: (d6 ++
        (['_', 'A', 'A', 'T', 'P'] ++ (d4 ++ '.' :: rest))))) := by
    simp [List.append_assoc]
  unfold matchAt
  rw [e0, dropLit_append]
  simp only [Option.some_bind]
  rw [← h8, grabDigits_append d8 _ hd8]
  simp only [Option.some_bind]
  rw [expectChar_cons]
  simp only [Option.some_bind]
  rw [← h6, grabDigits_append d6 _ hd6]
  simp only [Option.some_bind]
  rw [dropLit_append]
  simp only [Option.some_bind]
  rw [← h4, grabDigits_append d4 _ hd4]
  simp only [Option.some_bind]
  rw [expectChar_cons]
  rfl

/-- Inversion of `re.search`: a hit decomposes the string at some start
position. -/
lemma reSearch_eq_some : ∀ (s : List Char) (v : List Char × Nat),
    reSearch s = some v → ∃ pre suf, s = pre ++ suf ∧ matchAt suf = some v := by
  intro s
  induction s with
  | nil =>
    intro v h
    simp [reSearch] at h
  | cons c rest ih =>
    intro v h
    revert h
    show (match matchAt (c :: rest) with
      | some r => some r
      | none => reSearch rest) = some v → _
    cases hm : matchAt (c :: rest) with
    | some r =>
      intro h
      simp only [Option.some.injEq] at h
      exact ⟨[], c :: rest, by simp, by rw [hm, h]⟩
    | none =>
      intro h
      obtain ⟨pre, suf, hs, hmat⟩ := ih v h
      exact ⟨c :: pre, suf, by rw [List.cons_append, ← hs], hmat⟩

/-- `re.search` succeeds when the pattern matches at any position. -/
lemma reSearch_isSome : ∀ (pre suf : List Char) (v : List Char × Nat),
    matchAt suf = some v → (reSearch (pre ++ suf)).isSome = true := by
  intro pre
  induction pre with
  | nil =>
    intro suf v hm
    cases suf with
    | nil =>
      rw [show matchAt [] = (none : Option (List Char × Nat)) from rfl] at hm
      simp at hm
    | cons c rest =>
      show (match matchAt (c :: rest) with
        | some r => some r
        | none => reSearch rest).isSome = true
      rw [hm]
      rfl
  | cons p pre2 ih =>
    intro suf v hm
    show (match matchAt (p :: (pre2 ++ suf)) with
      | some r => some r
      | none => reSearch (pre2 ++ suf)).isSome = true
    cases hm2 : matchAt (p :: (pre2 ++ suf)) with
    | some r => rfl
    | none => exact ih suf v hm

/-- A parsed item records exactly the path it was parsed from. -/
lemma parse_path_eq {p : PyPath} {info : ImageInfo}
    (h : parse_image_filename p = some info) : info.path = p := by
  unfold parse_image_filename at h
  cases hr : reSearch p.name with
  | none => rw [hr] at h; simp at h
  | some v =>
    obtain ⟨ts, atp⟩ := v
    rw [hr] at h
    simp only [Option.some.injEq] at h
    rw [← h]

/-- Claim C10: the filename parser accepts exactly the names containing
`IMG_`, eight digits, `_`, six digits, `_AATP`, exactly four digits, and
a literal dot, anywhere in the name; every other name yields no item, so
its path never appears in any catalog (it is silently dropped). -/
theorem parse_accepts_iff (p : PyPath) :
    ((parse_image_filename p).isSome = true ↔ SpecImageName p.name) ∧
    (parse_image_filename p = none →
      ∀ (ps : List PyPath) (info : ImageInfo), info ∈ sort_images ps →
        info.path ≠ p) := by
  constructor
  · constructor
    · intro h
      rw [Option.isSome_iff_exists] at h
      obtain ⟨info, hinfo⟩ := h
      unfold parse_image_filename at hinfo
      cases hr : reSearch p.name with
      | none => rw [hr] at hinfo; simp at hinfo
      | some v =>
        obtain ⟨pre, suf, hs, hmat⟩ := reSearch_eq_some _ _ hr
        obtain ⟨ts, num⟩ := v
        obtain ⟨d8, d6, d4, rest, hdecomp, l8, l6, l4, g8, g6, g4⟩ :=
          matchAt_eq_some hmat
        refine ⟨pre, d8, d6, d4, rest, ?_, l8, l6, l4, g8, g6, g4⟩
        rw [hs, hdecomp]
        simp [List.append_assoc]
    · rintro ⟨pre, d8, d6, d4, post, hdecomp, l8, l6, l4, g8, g6, g4⟩
      have hm := matchAt_append d8 d6 d4 post l8 l6 l4 g8 g6 g4
      have hname : p.name = pre ++ (['I', 'M', 'G', '_'] ++ d8 ++ ['_'] ++ d6 ++
          ['_', 'A', 'A', 'T', 'P'] ++ d4 ++ '.' :: post) := by
        rw [hdecomp]
        simp [List.append_assoc]
      have hsearch := reSearch_isSome pre _ _ hm
      obtain ⟨v, hv⟩ := Option.isSome_iff_exists.mp hsearch
      obtain ⟨ts, num⟩ := v
      unfold parse_image_filename
      rw [hname, hv]
      rfl
  · intro hnone ps info hmem hpath
    have hmem2 : info ∈ ps.filterMap parse_image_filename :=
      List.mem_mergeSort.mp hmem
    obtain ⟨q, _, hparse⟩ := List.mem_filterMap.mp hmem2
    have hpq : info.path = q := parse_path_eq hparse
    rw [hpath] at hpq
    rw [← hpq] at hparse
    rw [hnone] at hparse
    exact absurd hparse (by simp)

/-- Witness for `parse_accepts_iff`: the item parsed from a well-formed
name never appears in a catalog under the path `bad.jpg`, whose name the
parser rejects. -/
theorem parse_accepts_iff_witness :
    (⟨⟨( "IMG_20230101_120000_AATP0001.jpg".toList )⟩,
        ( "20230101_120000".toList ), 1⟩ : ImageInfo).path ≠
      ⟨( "bad.jpg".toList )⟩ := by
  have hsort : sort_images [⟨( "IMG_20230101_120000_AATP0001.jpg".toList )⟩] =
      [⟨⟨( "IMG_20230101_120000_AATP0001.jpg".toList )⟩,
        ( "20230101_120000".toList ), 1⟩] := by
    unfold sort_images
    rw [show List.filterMap parse_image_filename
        [⟨( "IMG_20230101_120000_AATP0001.jpg".toList )⟩] =
        [⟨⟨( "IMG_20230101_120000_AATP0001.jpg".toList )⟩,
          ( "20230101_120000".toList ), 1⟩] from by decide]
    exact List.mergeSort_singleton _
  refine (parse_accepts_iff ⟨( "bad.jpg".toList )⟩).2 (by decide)
    [⟨( "IMG_20230101_120000_AATP0001.jpg".toList )⟩] _ ?_
  rw [hsort]
  exact List.mem_cons_self _ _

/-- Claim C7: the exit status is nonzero exactly when no candidate path passes
the filesystem check or no surviving path parses; each failure is
signalled by the corresponding fatal message before any interactive state
exists, and otherwise the loop starts from the initial session with exit
status 0. -/
theorem pre_loop_exit_policy (fsOk : PyPath → Bool) (ps : List PyPath) :
    (exitStatus fsOk ps ≠ 0 ↔
      ps.filter fsOk = [] ∨ sort_images (ps.filter fsOk) = []) ∧
    (ps.filter fsOk = [] → mainRun fsOk ps = .error .noValidPaths) ∧
    (ps.filter fsOk ≠ [] → sort_images (ps.filter fsOk) = [] →
      mainRun fsOk ps = .error .noAtpImages) ∧
    (∀ e, mainRun fsOk ps = .error e → exitStatus fsOk ps = 1) ∧
    (∀ cat sess, mainRun fsOk ps = .ok (cat, sess) →
      exitStatus fsOk ps = 0 ∧ cat = sort_images (ps.filter fsOk) ∧
        sess = ⟨initState cat.length, []⟩) := by
  by_cases h1 : ps.filter fsOk = []
  · have hmain : mainRun fsOk ps = .error .noValidPaths := by
      unfold mainRun
      rw [if_pos (by simp [h1])]
    have hexit : exitStatus fsOk ps = 1 := by
      unfold exitStatus
      rw [hmain]
    refine ⟨?_, fun _ => hmain, fun hc => absurd h1 hc, fun _ _ => hexit, ?_⟩
    · constructor
      · intro _
        exact Or.inl h1
      · intro _
        omega
    · intro cat sess hok
      rw [hmain] at hok
      exact absurd hok (by simp)
  · have hne1 : ¬ (ps.filter fsOk).isEmpty = true := by
      simpa [List.isEmpty_iff] using h1
    by_cases h2 : sort_images (ps.filter fsOk) = []
    · have hmain : mainRun fsOk ps = .error .noAtpImages := by
        unfold mainRun
        rw [if_neg hne1, if_pos (by simp [h2])]
      have hexit : exitStatus fsOk ps = 1 := by
        unfold exitStatus
        rw [hmain]
      refine ⟨?_, fun hc => absurd hc h1, fun _ _ => hmain, fun _ _ => hexit, ?_⟩
      · constructor
        · intro _
          exact Or.inr h2
        · intro _
          omega
      · intro cat sess hok
        rw [hmain] at hok
        exact absurd hok (by simp)
    · have hne2 : ¬ (sort_images (ps.filter fsOk)).isEmpty = true := by
        simpa [List.isEmpty_iff] using h2
      have hmain : mainRun fsOk ps = .ok (sort_images (ps.filter fsOk),
          ⟨initState (sort_images (ps.filter fsOk)).length, []⟩) := by
        unfold mainRun
        rw [if_neg hne1, if_neg hne2]
      have hexit : exitStatus fsOk ps = 0 := by
        unfold exitStatus
        rw [hmain]
      refine ⟨?_, fun hc => absurd hc h1, fun _ hc => absurd hc h2, ?_, ?_⟩
      · constructor
        · intro hc
          exact absurd hexit hc
        · intro hc
          rcases hc with hc | hc
          · exact absurd hc h1
          · exact absurd hc h2
      · intro e he
        rw [hmain] at he
        exact absurd he (by simp)
      · intro cat sess hok
        rw [hmain] at hok
        simp only [Except.ok.injEq, Prod.mk.injEq] at hok
        obtain ⟨hcat, hsess⟩ := hok
        subst hcat
        exact ⟨hexit, rfl, hsess.symm⟩

/-- Witness for `pre_loop_exit_policy`: with no path passing the check
the run fails with the no-valid-paths error; with a non-matching name it
fails with the no-ATP-images error and exit status 1; with one
well-formed name the loop is reached with exit status 0. -/
theorem pre_loop_exit_policy_witness :
    mainRun (fun _ => false) [⟨( "a.jpg".toList )⟩] = .error .noValidPaths ∧
    mainRun (fun _ => true) [⟨( "a.jpg".toList )⟩] = .error .noAtpImages ∧
    exitStatus (fun _ => true) [⟨( "a.jpg".toList )⟩] = 1 ∧
    exitStatus (fun _ => true)
      [⟨( "IMG_20230101_120000_AATP0001.jpg".toList )⟩] = 0 := by
  have hsortnil : sort_images (List.filter (fun _ => true) [⟨( "a.jpg".toList )⟩]) = [] := by
    unfold sort_images
    rw [show List.filterMap parse_image_filename
        (List.filter (fun _ => true) [⟨( "a.jpg".toList )⟩]) = [] from by decide]
    exact List.mergeSort_nil
  have hsortgood : sort_images (List.filter (fun _ => true)
      [⟨( "IMG_20230101_120000_AATP0001.jpg".toList )⟩]) ≠ [] := by
    unfold sort_images
    rw [show List.filterMap parse_image_filename
        (List.filter (fun _ => true)
          [⟨( "IMG_20230101_120000_AATP0001.jpg".toList )⟩]) =
        [⟨⟨( "IMG_20230101_120000_AATP0001.jpg".toList )⟩,
          ( "20230101_120000".toList ), 1⟩] from by decide,
      List.mergeSort_singleton]
    simp
  refine ⟨?_, ?_, ?_, ?_⟩
  · exact (pre_loop_exit_policy (fun _ => false) [⟨( "a.jpg".toList )⟩]).2.1 (by decide)
  · exact (pre_loop_exit_policy (fun _ => true) [⟨( "a.jpg".toList )⟩]).2.2.1
      (by decide) hsortnil
  · exact (pre_loop_exit_policy (fun _ => true) [⟨( "a.jpg".toList )⟩]).2.2.2.1
      .noAtpImages ((pre_loop_exit_policy (fun _ => true)
        [⟨( "a.jpg".toList )⟩]).2.2.1 (by decide) hsortnil)
  · by_contra hc
    have := ((pre_loop_exit_policy (fun _ => true)
        [⟨( "IMG_20230101_120000_AATP0001.jpg".toList )⟩]).1.mp hc)
    rcases this with h | h
    · exact absurd h (by decide)
    · exact absurd h hsortgood

end BisectImages
